import Mathlib

/-!
# Verification of the rune Lisp interpreter core

Shallow embedding of the tree-walking evaluator in `src/interpreter.rs`,
the `macroexpand` builtin in `src/eval.rs`, and the symbol table in
`src/core/env/symbol_map.rs`, together with a store model of the
clone-into-global/read-only-block discipline of `set_func` (whose
supporting code, `clone_in` and the cons mutability check, is not under
`src/` and is modelled from the spec).

Modelling conventions, stated once here:
* Tagged values (`GcObj`) become the inductive `Obj`.  `Nil` and `True`
  are the distinct immediates of the source; symbols are identified by
  their interned name (interning makes name equality coincide with
  pointer identity).  Native built-ins (`SubrFn`) are `Obj.subr name`
  with a fixed dispatch covering the builtins the claims exercise.
* The interpreter's lexical stack `vars : Vec<&Cons>` becomes
  `List (Obj × Obj)` in the same (oldest-first) order: `push` appends at
  the right, newest-first search scans the reversed list, and
  `truncate n` is `List.take n`.
* `Environment::vars` (the dynamic value cells) becomes an association
  list `List (String × Obj)`; `set_var` updates the existing entry in
  place or appends a fresh one.
* `anyhow` error values become the structured `Err`; their rendered
  display strings (used only as the message bound by `condition-case`)
  are approximated by `errMsg`, and error backtraces are omitted: no
  claim depends on message text.
* Explicit `as u16` casts written in the source, and the `u16` loop
  counters (`arg_cnt` in `setq`, `count` in `prog1`/`prog2`), are
  modelled with wrapping arithmetic (`% 65536`) — the release-build
  behaviour of the source; a debug build panics at the wrap point
  instead of wrapping, so either way the source does not produce the
  unwrapped value there.
* Recursion through `eval_form` is bounded by an explicit fuel that the
  host stack bounds in the source; `Err.outOfFuel` marks exhaustion.
* The source's two list-iteration APIs differ on improper lists:
  `as_list()?`-style iteration surfaces an error (modelled as
  `Err.typeError "list" tail`), while `element_iter!` cannot signal and
  is modelled as stopping at the first non-cons tail.
-/

/-- Tagged runtime value (`GcObj` of the source).  `nil` and `t` are the
distinguished immediates; `sym` carries the interned name; `subr` is a
native built-in identified by name. -/
inductive Obj where
  | int : Int → Obj
  | str : String → Obj
  | sym : String → Obj
  | cons : Obj → Obj → Obj
  | subr : String → Obj
  | nil : Obj
  | t : Obj
  deriving DecidableEq

/-- Structured rendering of the error values the interpreter produces
(`ArgError`, `TypeError`, the `anyhow!` messages, and the modelled
panics). -/
inductive Err where
  | argError : Nat → Nat → String → Err
  | typeError : String → Obj → Err
  | voidVariable : String → Err
  | voidFunction : String → Err
  | invalidFunction : Obj → Err
  | invalidConditionHandler : Obj → Err
  | nonErrorCondition : Obj → Err
  | letBindingTooMany : Err
  | multipleRestArgs : Err
  | unimplemented : String → Err
  | genericMsg : String → Err
  | panicUnwrap : Err
  | outOfFuel : Err
  deriving DecidableEq

/-- Approximate `format!` rendering of an error (`Display for EvalError`
without the backtrace); only its existence as a string matters to any
claim. -/
def errMsg : Err → String
  | .argError expected actual name =>
      "Invalid number of arguments for " ++ name ++ ": expected " ++
        toString expected ++ ", actual " ++ toString actual
  | .typeError expected _ => "expected " ++ expected
  | .voidVariable s => "Void variable: " ++ s
  | .voidFunction s => "Void Function: " ++ s
  | .invalidFunction _ => "Invalid function"
  | .invalidConditionHandler _ => "Invalid condition handler:"
  | .nonErrorCondition _ => "non-error conditions not yet supported"
  | .letBindingTooMany => "Let binding can only have 1 value"
  | .multipleRestArgs => "Found multiple arguments after &rest"
  | .unimplemented s => "not implemented: " ++ s
  | .genericMsg s => s
  | .panicUnwrap => "panic"
  | .outOfFuel => "out of fuel"

/-- Interpreter state: `lex` is `Interpreter::vars` (the lexical binding
stack of cons cells, oldest first, as the source's `Vec`), `env` is
`Environment::vars` (the dynamic value cells). -/
structure St where
  lex : List (Obj × Obj)
  env : List (String × Obj)
  deriving DecidableEq

/-- Result of one evaluation step: the state as mutated so far (the
source mutates through `&mut`, so partial effects survive an error)
paired with the `EvalResult`. -/
abbrev EvalOut := St × Except Err Obj

/-- Build a proper list object from a Lean list (`slice_into_list` with
tail `None`). -/
def listO : List Obj → Obj
  | [] => .nil
  | x :: xs => .cons x (listO xs)

/-- Build a list object ending in the given tail (`slice_into_list` with
an explicit tail). -/
def listOT (tail : Obj) : List Obj → Obj
  | [] => tail
  | x :: xs => .cons x (listOT tail xs)

/-- Length of a cons chain, following `cdr`s until the first non-cons. -/
def chainLen : Obj → Nat
  | .cons _ rest => chainLen rest + 1
  | _ => 0

/-- `as_list()?`-style conversion of an object to a Lean list: proper
lists succeed, a non-nil tail is a type error. -/
def objAsList : Obj → Except Err (List Obj)
  | .nil => .ok []
  | .cons x rest => do
      let xs ← objAsList rest
      .ok (x :: xs)
  | other => .error (.typeError "list" other)

/-- Dynamic-variable lookup in `Environment::vars`
(`self.env.vars.get(sym)`). -/
def envGet (env : List (String × Obj)) (name : String) : Option Obj :=
  (env.find? (fun p => p.1 = name)).map (·.2)

/-- `Environment::set_var`: update the existing cell in place, else
insert. -/
def envSet (env : List (String × Obj)) (name : String) (v : Obj) :
    List (String × Obj) :=
  match env with
  | [] => [(name, v)]
  | p :: rest =>
      if p.1 = name then (name, v) :: rest else p :: envSet rest name v

/-- Update the dynamic cell only when present (the `get_mut` in the
`eval_let` restore loop; the source's `unreachable!` branch — the cell
vanishing — cannot occur because cells are never removed, and is
modelled as a no-op). -/
def envSetIfPresent (env : List (String × Obj)) (name : String) (v : Obj) :
    List (String × Obj) :=
  match env with
  | [] => []
  | p :: rest =>
      if p.1 = name then (name, v) :: rest
      else p :: envSetIfPresent rest name v

/-- Newest-first search of the lexical stack
(`self.vars.iter().rev().find(...)` comparing each cons's car to the
symbol). -/
def findNewest (lex : List (Obj × Obj)) (name : String) : Option Obj :=
  (lex.reverse.find? (fun c => c.1 = Obj.sym name)).map (·.2)

/-- `sym.name.starts_with(':')` of `var_ref`, written as a
first-character test so that it evaluates by kernel reduction. -/
def isKeyword (name : String) : Bool :=
  match name.data with
  | c :: _ => c = ':'
  | [] => false

/-- `Interpreter::var_ref`: keywords self-evaluate, then the lexical
stack newest-first, then the dynamic cells, else `void-variable`. -/
def varRef (st : St) (name : String) : Except Err Obj :=
  if isKeyword name then .ok (.sym name)
  else
    match findNewest st.lex name with
    | some v => .ok v
    | none =>
        match envGet st.env name with
        | some v => .ok v
        | none => .error (.voidVariable name)

/-- Replace the cdr of the newest (rightmost) lexical cons whose car is
the symbol; `none` when no binding matches. -/
def updNewest (lex : List (Obj × Obj)) (name : String) (v : Obj) :
    Option (List (Obj × Obj)) :=
  match lex with
  | [] => none
  | p :: rest =>
      match updNewest rest name v with
      | some rest1 => some (p :: rest1)
      | none => if p.1 = Obj.sym name then some ((p.1, v) :: rest) else none

/-- `Interpreter::var_set`: mutate the newest matching lexical cons in
place (`set_cdr`), else set the dynamic cell. -/
def varSet (name : String) (v : Obj) (st : St) : St :=
  match updNewest st.lex name v with
  | some lex1 => { st with lex := lex1 }
  | none => { st with env := envSet st.env name v }

/-- Global symbol function slots (the process-wide symbol table's
view that the evaluator reads through `follow_indirect`); the claims
never install functions during evaluation, so it is a fixed parameter. -/
structure Globals where
  funcs : String → Option Obj

/-- The type of the sub-evaluation callback threaded through the
special-form handlers (`eval_form` at the enclosing recursion depth). -/
abbrev Ev := St → Obj → EvalOut

/-- Modelled from the spec: `Symbol::follow_indirect` is not under
`src/`; a function slot holding another symbol is followed transitively
with a hop limit (spec §9 suggests 256). -/
def followIndirect (g : Globals) : Nat → String → Option Obj
  | 0, _ => none
  | fuel + 1, s =>
      match g.funcs s with
      | some (.sym s2) => followIndirect g fuel s2
      | some f => some f
      | none => none

/-- Modelled from the spec: `Cons::try_as_macro` is not under `src/`; a
macro is "an outer `(macro . closure-cons)`" (spec §3), so a cons whose
car is the symbol `macro` yields its cdr as the function to call. -/
def asMacroObj : Obj → Option Obj
  | .cons (.sym "macro") f => some f
  | _ => none

/-- Modelled from the spec: the `defun`-level conversion of an object
argument into a `Gc<Function>` (the four callable tags; anything else is
a type error). -/
def objToFunction : Obj → Except Err Obj
  | .cons a d => .ok (.cons a d)
  | .sym s => .ok (.sym s)
  | .subr s => .ok (.subr s)
  | other => .error (.typeError "func" other)

/-- The loop of `Interpreter::implicit_progn`, with the rooted `last`
accumulator (initially nil). -/
def prognLoop (ev : Ev) : St → Obj → Obj → EvalOut
  | st, .cons f rest, _ =>
      match ev st f with
      | (st1, .ok v) => prognLoop ev st1 rest v
      | (st1, .error e) => (st1, .error e)
  | st, _, last => (st, .ok last)

/-- `Interpreter::implicit_progn`. -/
def implicitProgn (ev : Ev) (st : St) (forms : Obj) : EvalOut :=
  prognLoop ev st forms .nil

/-- `Interpreter::eval_if`: both the condition and the then-branch must
be present before anything is evaluated; the else forms are an implicit
progn. -/
def evalIf (ev : Ev) (st : St) (forms : Obj) : EvalOut :=
  match forms with
  | .cons cond rest =>
      match rest with
      | .cons tbranch ebranches =>
          match ev st cond with
          | (st1, .ok c) =>
              if c = .nil then implicitProgn ev st1 ebranches else ev st1 tbranch
          | (st1, .error e) => (st1, .error e)
      | _ => (st, .error (.argError 2 1 "if"))
  | _ => (st, .error (.argError 2 0 "if"))

/-- The loop of `Interpreter::eval_and` (`last` starts at `t`). -/
def andLoop (ev : Ev) : St → Obj → Obj → EvalOut
  | st, .cons f rest, _ =>
      match ev st f with
      | (st1, .ok v) =>
          if v = .nil then (st1, .ok .nil) else andLoop ev st1 rest v
      | (st1, .error e) => (st1, .error e)
  | st, _, last => (st, .ok last)

/-- `Interpreter::eval_and`. -/
def evalAnd (ev : Ev) (st : St) (forms : Obj) : EvalOut :=
  andLoop ev st forms .t

/-- `Interpreter::eval_or`. -/
def evalOr (ev : Ev) : St → Obj → EvalOut
  | st, .cons f rest =>
      match ev st f with
      | (st1, .ok v) => if v = .nil then evalOr ev st1 rest else (st1, .ok v)
      | (st1, .error e) => (st1, .error e)
  | st, _ => (st, .ok .nil)

/-- `Interpreter::eval_cond`: a clause that is not a cons is skipped
(its element iterator is empty); a clause with an empty body returns its
condition value. -/
def condLoop (ev : Ev) : St → Obj → EvalOut
  | st, .cons clause rest =>
      match clause with
      | .cons p body =>
          match ev st p with
          | (st1, .ok c) =>
              if c = .nil then condLoop ev st1 rest
              else
                match body with
                | .cons _ _ => implicitProgn ev st1 body
                | _ => (st1, .ok c)
          | (st1, .error e) => (st1, .error e)
      | _ => condLoop ev st rest
  | st, _ => (st, .ok .nil)

/-- The loop of `Interpreter::eval_while`; the whole form list
(condition included) is re-run as an implicit progn each iteration, as
in the source.  Iterations are bounded by fuel. -/
def whileLoop (ev : Ev) (cond forms : Obj) : Nat → St → EvalOut
  | 0, st => (st, .error .outOfFuel)
  | n + 1, st =>
      match ev st cond with
      | (st1, .ok c) =>
          if c = .nil then (st1, .ok .nil)
          else
            match implicitProgn ev st1 forms with
            | (st2, .ok _) => whileLoop ev cond forms n st2
            | (st2, .error e) => (st2, .error e)
      | (st1, .error e) => (st1, .error e)

/-- `Interpreter::eval_while`. -/
def evalWhile (ev : Ev) (iterFuel : Nat) (st : St) (forms : Obj) : EvalOut :=
  match forms with
  | .cons cond _ => whileLoop ev cond forms iterFuel st
  | .nil => (st, .error (.argError 1 0 "while"))
  | other => (st, .error (.typeError "list" other))

/-- `Interpreter::eval_progx` (`prog1`/`prog2`): remember the
`progNum`-th value, evaluate everything, and fail with an arg error when
too few forms were present.  The `count` counter is a `u16` in the
source; its increment wraps (header note on `u16` counters). -/
def progxLoop (ev : Ev) (progNum : Nat) : St → Obj → Nat → Option Obj → EvalOut
  | st, .cons f rest, count, returned =>
      match ev st f with
      | (st1, .ok v) =>
          progxLoop ev progNum st1 rest ((count + 1) % 65536)
            (if progNum = (count + 1) % 65536 then some v else returned)
      | (st1, .error e) => (st1, .error e)
  | st, _, count, returned =>
      match returned with
      | some x => (st, .ok x)
      | none =>
          (st, .error (.argError progNum count
            (if progNum = 1 then "prog1" else if progNum = 2 then "prog2" else "progn")))

/-- `Interpreter::quote`: exactly one argument. -/
def quoteFn (args : Obj) : Except Err Obj := do
  let xs ← objAsList args
  match xs with
  | [x] => .ok x
  | _ => .error (.argError 1 (xs.length % 65536) "quote")

/-- `Interpreter::eval_function`: one argument; a `(lambda ...)` cons is
wrapped into `(closure <serialized lexical stack, t-terminated> . cdr)`;
anything else is returned as is.  The length check happens on the
`as u16`-truncated length, after which the first form is taken. -/
def evalFunction (st : St) (args : Obj) : Except Err Obj := do
  let xs ← objAsList args
  if xs.length % 65536 ≠ 1 then
    .error (.argError 1 (xs.length % 65536) "function")
  else
    match xs.head? with
    | none => .error .panicUnwrap
    | some form =>
        match form with
        | .cons car cdr =>
            if car = .sym "lambda" then
              .ok (.cons (.sym "closure")
                (.cons (listOT (.cons .t .nil) (st.lex.map (fun p => Obj.cons p.1 p.2))) cdr))
            else .ok (.cons car cdr)
        | other => .ok other

/-- `Interpreter::catch`: the tag form is consumed from the iterator but
never evaluated; the body is an implicit progn. -/
def evalCatch (ev : Ev) (st : St) (forms : Obj) : EvalOut :=
  match forms with
  | .cons _tag rest => implicitProgn ev st rest
  | _ => (st, .error (.argError 1 0 "catch"))

/-- `Interpreter::defvar`, the shared handler for both `defvar` and
`defconst`: evaluate the value form (nil when absent) and assign it
unconditionally through `var_set`. -/
def evalDefvar (ev : Ev) (st : St) (forms : Obj) : EvalOut :=
  match forms with
  | .cons x rest =>
      match x with
      | .sym name =>
          match rest with
          | .cons vform _ =>
              match ev st vform with
              | (st1, .ok v) => (varSet name v st1, .ok v)
              | (st1, .error e) => (st1, .error e)
          | _ => (varSet name .nil st, .ok .nil)
      | other => (st, .error (.typeError "symbol" other))
  | _ => (st, .error (.argError 1 0 "defvar"))

/-- The loop of `Interpreter::setq`: pairwise variable/value forms, each
assigned through `var_set`; the result is the last assigned value.  The
`arg_cnt` counter is a `u16` in the source; its increment wraps (header
note on `u16` counters), so a form of `2 ^ 15` pairs ends with the
counter back at 0 and fails the final `arg_cnt < 2` check even though
every assignment was performed. -/
def setqLoop (ev : Ev) : St → Obj → Nat → Obj → EvalOut
  | st, .cons var rest, argCnt, _ =>
      match rest with
      | .cons vform rest2 =>
          match var with
          | .sym name =>
              match ev st vform with
              | (st1, .ok val) =>
                  setqLoop ev (varSet name val st1) rest2 ((argCnt + 2) % 65536) val
              | (st1, .error e) => (st1, .error e)
          | _ => (st, .error (.typeError "symbol" var))
      | _ => (st, .error (.argError argCnt (argCnt + 1) "setq"))
  | st, _, argCnt, lastValue =>
      if argCnt < 2 then (st, .error (.argError 2 0 "setq"))
      else (st, .ok lastValue)

/-- The condition check of `Interpreter::condition_case` on a handler's
condition list: every element must be `error` or `debug`, else the
"non-error conditions not yet supported" error is raised. -/
def condListCheck : Obj → Except Err Unit
  | .nil => .ok ()
  | .cons x rest =>
      if x = Obj.sym "debug" ∨ x = Obj.sym "error" then condListCheck rest
      else .error (.nonErrorCondition x)
  | other => .error (.typeError "list" other)

/-- The condition check of `Interpreter::condition_case` on a handler's
car: the symbol `error` matches, a cons is checked element-wise, and
anything else is an invalid condition handler. -/
def condCheck : Obj → Except Err Unit
  | .sym s =>
      if s = "error" then .ok () else .error (.invalidConditionHandler (.sym s))
  | .cons a d => condListCheck (.cons a d)
  | other => .error (.invalidConditionHandler other)

/-- The handler-scanning loop of `Interpreter::condition_case`: nil
handlers are skipped; the first cons handler whose condition passes
`condCheck` runs its body with the handler variable's cons
`(var . (error <message>))` pushed on the lexical stack (popped again on
success, and a non-list handler body yields nil with the binding left
pushed, as in the source); an exhausted list propagates the original
error. -/
def ccHandlers (ev : Ev) (st : St) (var : Obj) (e : Err) : Obj → EvalOut
  | .cons h rest =>
      match h with
      | .cons cond hbody =>
          match condCheck cond with
          | .error e2 => (st, .error e2)
          | .ok _ =>
              let st1 :=
                { st with lex :=
                    st.lex ++ [(var, .cons (.sym "error") (.cons (.str (errMsg e)) .nil))] }
              match hbody with
              | .cons _ _ | .nil =>
                  match implicitProgn ev st1 hbody with
                  | (st2, .ok v) => ({ st2 with lex := st2.lex.dropLast }, .ok v)
                  | (st2, .error e3) => (st2, .error e3)
              | _ => (st1, .ok .nil)
      | .nil => ccHandlers ev st var e rest
      | invalid => (st, .error (.invalidConditionHandler invalid))
  | _ => (st, .error e)

/-- `Interpreter::condition_case`. -/
def evalCondCase (ev : Ev) (st : St) (forms : Obj) : EvalOut :=
  match forms with
  | .cons var rest =>
      match rest with
      | .cons bodyform handlers =>
          match ev st bodyform with
          | (st1, .ok x) => (st1, .ok x)
          | (st1, .error e) => ccHandlers ev st1 var e handlers
      | _ => (st, .error (.argError 2 1 "condition-case"))
  | _ => (st, .error (.argError 2 0 "condition-case"))

/-- `Interpreter::let_bind_value`: evaluate the single value form of a
`(sym expr)` binding (nil when absent), reject a second value form, then
require the bound position to be a symbol. -/
def letBindValue (ev : Ev) (st : St) (car cdr : Obj) :
    St × Except Err (String × Obj) :=
  match cdr with
  | .cons vform more =>
      match ev st vform with
      | (st1, .ok val) =>
          match more with
          | .cons _ _ => (st1, .error .letBindingTooMany)
          | _ =>
              match car with
              | .sym s => (st1, .ok (s, val))
              | other => (st1, .error (.typeError "symbol" other))
      | (st1, .error e) => (st1, .error e)
  | _ =>
      match car with
      | .sym s => (st, .ok (s, .nil))
      | other => (st, .error (.typeError "symbol" other))

/-- Install one `let` binding: a symbol already holding a dynamic value
is saved on the shadow list and its cell updated in place; otherwise a
fresh cons is pushed on the lexical stack. -/
def letInstall (st : St) (dyn : List (String × Obj)) (s : String) (val : Obj) :
    St × List (String × Obj) :=
  match envGet st.env s with
  | some prev => ({ st with env := envSet st.env s val }, dyn ++ [(s, prev)])
  | none => ({ st with lex := st.lex ++ [(Obj.sym s, val)] }, dyn)

/-- `Interpreter::let_bind_serial`: evaluate and install each binding in
turn, accumulating the dynamic shadow list in binding order. -/
def letBindSerial (ev : Ev) :
    St → Obj → List (String × Obj) → St × List (String × Obj) × Except Err Unit
  | st, .cons b rest, dyn =>
      match b with
      | .cons car cdr =>
          match letBindValue ev st car cdr with
          | (st1, .ok (s, val)) =>
              let (st2, dyn2) := letInstall st1 dyn s val
              letBindSerial ev st2 rest dyn2
          | (st1, .error e) => (st1, dyn, .error e)
      | .sym s =>
          let (st2, dyn2) := letInstall st dyn s .nil
          letBindSerial ev st2 rest dyn2
      | other => (st, dyn, .error (.typeError "cons" other))
  | st, _, dyn => (st, dyn, .ok ())

/-- First phase of `Interpreter::let_bind_parallel`: evaluate all value
forms into a temporary vector. -/
def letCollectParallel (ev : Ev) :
    St → Obj → List (String × Obj) → St × Except Err (List (String × Obj))
  | st, .cons b rest, acc =>
      match b with
      | .cons car cdr =>
          match letBindValue ev st car cdr with
          | (st1, .ok p) => letCollectParallel ev st1 rest (acc ++ [p])
          | (st1, .error e) => (st1, .error e)
      | .sym s => letCollectParallel ev st rest (acc ++ [(s, Obj.nil)])
      | other => (st, .error (.typeError "cons" other))
  | st, _, acc => (st, .ok acc)

/-- Second phase of `Interpreter::let_bind_parallel`: install the
collected bindings with the same save-and-shadow rule as the serial
form. -/
def letInstallAll (st : St) (dyn : List (String × Obj)) :
    List (String × Obj) → St × List (String × Obj)
  | [] => (st, dyn)
  | (s, val) :: rest =>
      let (st1, dyn1) := letInstall st dyn s val
      letInstallAll st1 dyn1 rest

/-- The restore loop at the end of `Interpreter::eval_let`: the shadow
list is walked in its stored (forward) order — `for binding in
dynamic_bindings.iter()` — writing each saved value back into the
dynamic cell. -/
def restoreDyn (env : List (String × Obj)) (dyn : List (String × Obj)) :
    List (String × Obj) :=
  dyn.foldl (fun e p => envSetIfPresent e p.1 p.2) env

/-- `Interpreter::eval_let` (`parallel` selects `let` vs `let*`): bind,
run the body, then truncate the lexical stack to its previous length and
write back the saved dynamic values; an error anywhere propagates
without the restore step, as in the source. -/
def evalLet (ev : Ev) (parallel : Bool) (st : St) (form : Obj) : EvalOut :=
  match form with
  | .cons bindingsObj body =>
      let prevLen := st.lex.length
      let res :=
        if parallel then
          match letCollectParallel ev st bindingsObj [] with
          | (sta, .ok pairs) =>
              let (stb, dynb) := letInstallAll sta [] pairs
              (stb, dynb, Except.ok ())
          | (sta, .error e) => (sta, [], Except.error e)
        else letBindSerial ev st bindingsObj []
      match res with
      | (st1, _, .error e) => (st1, .error e)
      | (st1, dyn, .ok _) =>
          match implicitProgn ev st1 body with
          | (st2, .ok v) =>
              (⟨st2.lex.take prevLen, restoreDyn st2.env dyn⟩, .ok v)
          | (st2, .error e) => (st2, .error e)
  | _ => (st, .error (.argError 1 0 "let"))

/-- The loop of `parse_arg_list` (`src/interpreter.rs`): symbols before
`&optional` are required, after it optional; `&rest` takes exactly the
next symbol (none when the list ends there), and anything after that
single symbol is an error.  Non-symbol members are type errors and an
improper tail surfaces the `as_list` iterator error. -/
def parseArgListAux : Obj → Bool → List String → List String →
    Except Err (List String × List String × Option String)
  | .nil, _, req, opt => .ok (req.reverse, opt.reverse, none)
  | .cons b rest, inOpt, req, opt =>
      match b with
      | .sym s =>
          if s = "&optional" then parseArgListAux rest true req opt
          else if s = "&rest" then
            match rest with
            | .cons r rest2 =>
                match r with
                | .sym rs =>
                    match rest2 with
                    | .nil => .ok (req.reverse, opt.reverse, some rs)
                    | _ => .error .multipleRestArgs
                | other => .error (.typeError "symbol" other)
            | .nil => .ok (req.reverse, opt.reverse, none)
            | other => .error (.typeError "list" other)
          else if inOpt then parseArgListAux rest inOpt req (s :: opt)
          else parseArgListAux rest inOpt (s :: req) opt
      | other => .error (.typeError "symbol" other)
  | other, _, _, _ => .error (.typeError "list" other)

/-- `parse_arg_list`: split a formal parameter list into required,
optional and rest names. -/
def parseArgList (bindings : Obj) :
    Except Err (List String × List String × Option String) :=
  parseArgListAux bindings false [] []

/-- The required-parameter loop of `bind_args`: each required name takes
the next actual (`arg_values.next().unwrap()`, a panic when the
truncated arity check let an under-supplied call through). -/
def bindRequired : List String → List Obj →
    Except Err (List (Obj × Obj) × List Obj)
  | [], args => .ok ([], args)
  | _ :: _, [] => .error .panicUnwrap
  | n :: ns, a :: more =>
      match bindRequired ns more with
      | .error e => .error e
      | .ok (vs, rest) => .ok ((Obj.sym n, a) :: vs, rest)

/-- The optional-parameter loop of `bind_args`: absent actuals default
to nil (`unwrap_or_default`). -/
def bindOptional : List String → List Obj → List (Obj × Obj) × List Obj
  | [], args => ([], args)
  | n :: ns, [] =>
      let (vs, rest) := bindOptional ns []
      ((Obj.sym n, .nil) :: vs, rest)
  | n :: ns, a :: more =>
      let (vs, rest) := bindOptional ns more
      ((Obj.sym n, a) :: vs, rest)

/-- `bind_args` (`src/interpreter.rs`): parse the formals, check the
minimum arity on the `as u16`-truncated counts, bind required then
optional parameters, gather the remainder into a proper list for a
`&rest` formal, and reject leftovers otherwise. -/
def bindArgs (argList : Obj) (args : List Obj) (name : String) :
    Except Err (List (Obj × Obj)) :=
  match parseArgList argList with
  | .error e => .error e
  | .ok (required, optional, rest) =>
      let numRequired := required.length % 65536
      let numOptional := optional.length % 65536
      let numActual := args.length % 65536
      if numActual < numRequired then
        .error (.argError numRequired numActual name)
      else
        match bindRequired required args with
        | .error e => .error e
        | .ok (reqBinds, rem1) =>
            match bindOptional optional rem1 with
            | (optBinds, rem2) =>
                match rest with
                | some r => .ok (reqBinds ++ optBinds ++ [(Obj.sym r, listO rem2)])
                | none =>
                    if rem2.isEmpty then .ok (reqBinds ++ optBinds)
                    else
                      .error (.argError ((numRequired + numOptional) % 65536)
                        numActual name)

/-- `parse_closure_env`: collect `(sym . val)` conses until the terminal
`t`; a list ending without `t` or containing another member shape is an
error. -/
def parseClosureEnv : Obj → Except Err (List (Obj × Obj))
  | .cons x rest =>
      match x with
      | .cons a d => do
          let env ← parseClosureEnv rest
          .ok ((a, d) :: env)
      | .t => .ok []
      | _ => .error (.genericMsg "Invalid closure environment member")
  | .nil => .error (.genericMsg "Closure env did not end with t")
  | other => .error (.typeError "list" other)

/-- `call_closure`: check the `closure` tag, parse the captured
environment and the formals, bind the actuals, and run the body as an
implicit progn in a fresh interpreter sharing only the dynamic
environment (the caller's lexical stack is untouched). -/
def callClosure (ev : Ev) (closure : Obj) (args : List Obj)
    (env : List (String × Obj)) (name : String) :
    List (String × Obj) × Except Err Obj :=
  match closure with
  | .cons car body =>
      if car = .sym "closure" then
        match body with
        | .cons closEnv rest1 =>
            match parseClosureEnv closEnv with
            | .error e => (env, .error e)
            | .ok envPairs =>
                match rest1 with
                | .cons argList bodyForms =>
                    match bindArgs argList args name with
                    | .error e => (env, .error e)
                    | .ok binds =>
                        match implicitProgn ev ⟨envPairs ++ binds, env⟩ bodyForms with
                        | (st1, r) => (st1.env, r)
                | _ => (env, .error (.genericMsg "Closure missing argument list"))
        | _ => (env, .error (.genericMsg "Closure missing environment"))
      else (env, .error (.typeError "func" car))
  | other => (env, .error (.typeError "func" other))

/-- `Rt<Gc<Function>>::call`, with the native dispatch restricted to the
built-ins the claims exercise (`cons` from the registry, modelled from
the spec's arity rule, and `funcall` from `src/eval.rs`).  The explicit
fuel bounds the host-stack recursion of subr-to-subr calls. -/
def callFunction (g : Globals) (ev : Ev) :
    Nat → Obj → List Obj → List (String × Obj) → Option String →
    List (String × Obj) × Except Err Obj
  | 0, _, _, env, _ => (env, .error .outOfFuel)
  | cfuel + 1, f, args, env, nameO =>
      let name := nameO.getD "lambda"
      match f with
      | .subr s =>
          if s = "cons" then
            match args with
            | [a, d] => (env, .ok (.cons a d))
            | _ => (env, .error (.argError 2 (args.length % 65536) "cons"))
          else if s = "funcall" then
            match args with
            | [] => (env, .error (.argError 1 0 "funcall"))
            | fObj :: rest =>
                match objToFunction fObj with
                | .error e => (env, .error e)
                | .ok fn => callFunction g ev cfuel fn rest env none
          else (env, .error (.genericMsg ("unknown subr: " ++ s)))
      | .cons a d => callClosure ev (.cons a d) args env name
      | .sym s =>
          match followIndirect g 256 s with
          | some f2 => callFunction g ev cfuel f2 args env (some name)
          | none => (env, .error (.voidFunction s))
      | other => (env, .error (.typeError "func" other))

/-- The argument-evaluation loop of `Interpreter::eval_call`: evaluate
each element left to right into the rooted argument vector. -/
def evalArgsLoop (ev : Ev) : St → Obj → List Obj → St × Except Err (List Obj)
  | st, .cons f rest, acc =>
      match ev st f with
      | (st1, .ok v) => evalArgsLoop ev st1 rest (acc ++ [v])
      | (st1, .error e) => (st1, .error e)
  | st, _, acc => (st, .ok acc)

/-- `Interpreter::eval_call`: resolve the head symbol through
`follow_indirect`; a macro is applied to the unevaluated argument list
and its expansion re-evaluated; otherwise the arguments are evaluated
left to right and the function called. -/
def evalCall (g : Globals) (ev : Ev) (cfuel : Nat) (st : St) (name : String)
    (args : Obj) : EvalOut :=
  match followIndirect g 256 name with
  | none => (st, .error (.invalidFunction (.sym name)))
  | some func =>
      match asMacroObj func with
      | some mfn =>
          match objAsList args with
          | .error e => (st, .error e)
          | .ok margs =>
              match callFunction g ev cfuel mfn margs st.env (some name) with
              | (env1, .ok expansion) => ev { st with env := env1 } expansion
              | (env1, .error e) => ({ st with env := env1 }, .error e)
      | none =>
          match evalArgsLoop ev st args [] with
          | (st1, .ok argVals) =>
              match callFunction g ev cfuel func argVals st1.env (some name) with
              | (env1, r) => ({ st1 with env := env1 }, r)
          | (st1, .error e) => (st1, .error e)

/-- `macroexpand` (`src/eval.rs`): a supplied environment argument is
unimplemented; a cons whose car is a symbol resolving to a macro has the
macro called once on the raw cdr and the expansion returned without
further expansion; everything else is returned unchanged. -/
def macroExpandFn (g : Globals) (ev : Ev) (cfuel : Nat) (form : Obj)
    (environment : Option Obj) (env : List (String × Obj)) :
    List (String × Obj) × Except Err Obj :=
  match environment with
  | some _ => (env, .error (.unimplemented "macroexpand override environment"))
  | none =>
      match form with
      | .cons (.sym name) rest =>
          match followIndirect g 256 name with
          | some callable =>
              match asMacroObj callable with
              | some mfn =>
                  match objAsList rest with
                  | .error e => (env, .error e)
                  | .ok margs => callFunction g ev cfuel mfn margs env (some name)
              | none => (env, .ok form)
          | none => (env, .ok form)
      | _ => (env, .ok form)

/-- `Interpreter::eval_form` / `eval_sexp`: fuel-indexed evaluator; the
dispatch table is the special-form match of `eval_sexp` with symbol
identity rendered as name equality. -/
def evalForm (g : Globals) : Nat → St → Obj → EvalOut
  | 0, st, _ => (st, .error .outOfFuel)
  | n + 1, st, form =>
      match form with
      | .sym s => (st, varRef st s)
      | .cons head rest =>
          match head with
          | .sym s =>
              if s = "quote" then (st, quoteFn rest)
              else if s = "let" then evalLet (evalForm g n) true st rest
              else if s = "let*" then evalLet (evalForm g n) false st rest
              else if s = "if" then evalIf (evalForm g n) st rest
              else if s = "and" then evalAnd (evalForm g n) st rest
              else if s = "or" then evalOr (evalForm g n) st rest
              else if s = "cond" then condLoop (evalForm g n) st rest
              else if s = "while" then evalWhile (evalForm g n) n st rest
              else if s = "progn" then implicitProgn (evalForm g n) st rest
              else if s = "prog1" then progxLoop (evalForm g n) 1 st rest 0 none
              else if s = "prog2" then progxLoop (evalForm g n) 2 st rest 0 none
              else if s = "setq" then setqLoop (evalForm g n) st rest 0 .nil
              else if s = "defvar" ∨ s = "defconst" then
                evalDefvar (evalForm g n) st rest
              else if s = "function" then (st, evalFunction st rest)
              else if s = "interactive" then (st, .ok .nil)
              else if s = "catch" then evalCatch (evalForm g n) st rest
              else if s = "condition-case" then evalCondCase (evalForm g n) st rest
              else evalCall g (evalForm g n) n st s rest
          | other => (st, .error (.invalidFunction other))
      | other => (st, .ok other)

/-- `SymbolMapCore` (`src/core/env/symbol_map.rs`): the process-wide
interning map.  Symbol cells are identified by the order in which they
were allocated in the global block (`nextId`), which models pointer
identity: distinct allocations have distinct ids. -/
structure SMap where
  entries : List (String × Nat)
  nextId : Nat
  deriving DecidableEq

/-- `SymbolMapCore::get`: pure lookup. -/
def SMap.get (m : SMap) (name : String) : Option Nat :=
  (m.entries.find? (fun p => p.1 = name)).map (·.2)

/-- `SymbolMapCore::intern`: return the existing entry, or allocate a
fresh symbol cell (`Symbol::new`) and insert it under the name. -/
def SMap.intern (m : SMap) (name : String) : Nat × SMap :=
  match m.get name with
  | some x => (x, m)
  | none => (m.nextId, ⟨(name, m.nextId) :: m.entries, m.nextId + 1⟩)

/-- Heap word for the store model of the global block: an immediate or a
reference to a cons cell at an index. -/
inductive HVal where
  | int : Int → HVal
  | sym : String → HVal
  | nil : HVal
  | t : HVal
  | ref : Nat → HVal
  deriving DecidableEq

/-- A cons cell with its mutability bit (`ro` is true for cells living
in a `Block<true>`, the read-only global block). -/
structure HCons where
  car : HVal
  cdr : HVal
  ro : Bool
  deriving DecidableEq

/-- The cons store: cells addressed by index; allocation appends. -/
structure HHeap where
  cells : List HCons
  deriving DecidableEq

/-- Error of the cons mutation primitives. -/
inductive MutErr where
  | immutableCons : MutErr
  | missingCell : MutErr
  deriving DecidableEq

/-- Modelled from the spec: `Cons::set_car` — "a cons marked immutable
(e.g. a function body) rejects `set-car`/`set-cdr` with an error"
(§3); the mutability check itself is not under `src/`. -/
def setCar (h : HHeap) (a : Nat) (v : HVal) : Except MutErr HHeap :=
  match h.cells[a]? with
  | none => .error .missingCell
  | some c =>
      if c.ro then .error .immutableCons
      else .ok ⟨h.cells.set a ⟨v, c.cdr, c.ro⟩⟩

/-- Modelled from the spec: `Cons::set_cdr`, as `setCar`. -/
def setCdr (h : HHeap) (a : Nat) (v : HVal) : Except MutErr HHeap :=
  match h.cells[a]? with
  | none => .error .missingCell
  | some c =>
      if c.ro then .error .immutableCons
      else .ok ⟨h.cells.set a ⟨c.car, v, c.ro⟩⟩

/-- Modelled from the spec: `CloneIn::clone_in` into the global block —
"deep-copies any referenced conses so that the function body lives in
the read-only global heap" (§4.C); every copied cell is allocated fresh
at the end of the store with its read-only bit set.  The fuel bounds
recursion depth (the source recursion is bounded by the acyclic shape of
function bodies). -/
def cloneIn : Nat → HHeap → HVal → Option (HVal × HHeap)
  | 0, _, _ => none
  | fuel + 1, h, v =>
      match v with
      | .ref a =>
          match h.cells[a]? with
          | none => none
          | some c =>
              match cloneIn fuel h c.car with
              | none => none
              | some (car2, h1) =>
                  match cloneIn fuel h1 c.cdr with
                  | none => none
                  | some (cdr2, h2) =>
                      some (.ref h2.cells.length, ⟨h2.cells ++ [⟨car2, cdr2, true⟩]⟩)
      | other => some (other, h)

/-- Update-or-insert on the symbol function slots. -/
def slotSet (slots : List (String × HVal)) (name : String) (v : HVal) :
    List (String × HVal) :=
  match slots with
  | [] => [(name, v)]
  | p :: rest =>
      if p.1 = name then (name, v) :: rest else p :: slotSet rest name v

/-- The global block together with the symbols' function slots. -/
structure SymTab where
  heap : HHeap
  slots : List (String × HVal)
  deriving DecidableEq

/-- `SymbolMap::set_func`: clone the function value into the global
block, then store the clone into the symbol's function slot.  (The
uninterned-symbol cache clear has no observable effect in this model.) -/
def SymTab.setFunc (tab : SymTab) (s : String) (f : HVal) (fuel : Nat) :
    Option SymTab :=
  match cloneIn fuel tab.heap f with
  | none => none
  | some (f2, h2) => some ⟨h2, slotSet tab.slots s f2⟩

/-- Read a symbol's function slot. -/
def getFunc (tab : SymTab) (s : String) : Option HVal :=
  (tab.slots.find? (fun p => p.1 = s)).map (·.2)

/-- Addresses of cons cells reachable from a heap word by following
`car`/`cdr` through existing cells. -/
inductive Reaches (h : HHeap) : HVal → Nat → Prop
  | here {a : Nat} {c : HCons} : h.cells[a]? = some c → Reaches h (.ref a) a
  | viaCar {a : Nat} {c : HCons} {b : Nat} :
      h.cells[a]? = some c → Reaches h c.car b → Reaches h (.ref a) b
  | viaCdr {a : Nat} {c : HCons} {b : Nat} :
      h.cells[a]? = some c → Reaches h c.cdr b → Reaches h (.ref a) b

/-- Pure tree of values, the observable content of a heap word. -/
inductive HTree where
  | int : Int → HTree
  | sym : String → HTree
  | nil : HTree
  | t : HTree
  | cons : HTree → HTree → HTree
  deriving DecidableEq

/-- Flatten a heap word to its value tree (fuel-bounded). -/
def readBack : Nat → HHeap → HVal → Option HTree
  | 0, _, _ => none
  | fuel + 1, h, v =>
      match v with
      | .ref a =>
          match h.cells[a]? with
          | none => none
          | some c =>
              match readBack fuel h c.car, readBack fuel h c.cdr with
              | some t1, some t2 => some (.cons t1 t2)
              | _, _ => none
      | .int n => some (.int n)
      | .sym s => some (.sym s)
      | .nil => some .nil
      | .t => some .t

/-- A word's reference, if any, lies at or above the watermark `lo`. -/
def refLB (lo : Nat) : HVal → Prop
  | .ref a => lo ≤ a
  | _ => True

/-- Every cell at or above the watermark is read-only and refers only at
or above the watermark. -/
def FreshRO (h : HHeap) (lo : Nat) : Prop :=
  ∀ i c, lo ≤ i → h.cells[i]? = some c →
    c.ro = true ∧ refLB lo c.car ∧ refLB lo c.cdr

/-- A well-formed, fully successful run of the `setq` pair loop under
sub-evaluator `ev`: `SetqSteps ev st forms k st' last` holds when
`forms` is a chain of `k ≥ 1` `(symbol value-form)` pairs, every value
form evaluates successfully (left to right, each assignment applied
through `var_set` before the next pair), `st'` is the resulting state
and `last` the value assigned to the last pair. -/
inductive SetqSteps (ev : Ev) : St → Obj → Nat → St → Obj → Prop where
  | last {st st1 : St} {s : String} {vform val : Obj} :
      ev st vform = (st1, .ok val) →
      SetqSteps ev st (.cons (.sym s) (.cons vform .nil)) 1 (varSet s val st1) val
  | step {st st1 st' : St} {s : String} {vform val rest lastv : Obj} {k : Nat} :
      ev st vform = (st1, .ok val) →
      SetqSteps ev (varSet s val st1) rest k st' lastv →
      SetqSteps ev st (.cons (.sym s) (.cons vform rest)) (k + 1) st' lastv

/-- A chain of `k` copies of the `setq` pair `x 1`, the input on which
the wrapped `arg_cnt` counter shows. -/
def setqNPairs : Nat → Obj
  | 0 => .nil
  | k + 1 => .cons (.sym "x") (.cons (.int 1) (setqNPairs k))

/-- Function slots for concrete runs: the two built-ins the claims'
literal scenarios call. -/
def gBase : Globals :=
  ⟨fun s =>
    if s = "funcall" then some (.subr "funcall")
    else if s = "cons" then some (.subr "cons")
    else none⟩

/-- A decidable equality for evaluation results, so that concrete runs
can be checked by `decide`. -/
instance : DecidableEq (Except Err Obj) := fun a b =>
  match a, b with
  | .ok x, .ok y => decidable_of_iff (x = y) (by simp)
  | .error x, .error y => decidable_of_iff (x = y) (by simp)
  | .ok _, .error _ => isFalse (by simp)
  | .error _, .ok _ => isFalse (by simp)

/-- Function slots for the macro-expansion runs: the symbol `m` holds
the macro `(macro closure (t) (x) x)`, which expands `(m form)` to
`form` unevaluated. -/
def gMac : Globals :=
  ⟨fun s =>
    if s = "m" then
      some (.cons (.sym "macro") (.cons (.sym "closure")
        (.cons (.cons .t .nil)
          (.cons (.cons (.sym "x") .nil) (.cons (.sym "x") .nil)))))
    else none⟩

theorem refLB_mono {lo lo' : Nat} (hle : lo ≤ lo') {v : HVal} (h : refLB lo' v) :
    refLB lo v := by
  cases v with
  | ref a => simp only [refLB] at h ⊢; omega
  | int n => simp [refLB]
  | sym s => simp [refLB]
  | nil => simp [refLB]
  | t => simp [refLB]

theorem cloneIn_spec :
    ∀ (fuel : Nat) (h : HHeap) (v v' : HVal) (h' : HHeap),
      cloneIn fuel h v = some (v', h') →
      (∃ ext, h'.cells = h.cells ++ ext) ∧
      refLB h.cells.length v' ∧ FreshRO h' h.cells.length := by
  intro fuel
  induction fuel with
  | zero => intro h v v' h' hc; simp [cloneIn] at hc
  | succ n ih =>
    intro h v v' h' hc
    cases v with
    | ref a =>
      simp only [cloneIn] at hc
      split at hc
      · simp at hc
      · rename_i c hget
        split at hc
        · simp at hc
        · rename_i car2 h1 hc1
          split at hc
          · simp at hc
          · rename_i cdr2 h2 hc2
            simp only [Option.some.injEq, Prod.mk.injEq] at hc
            obtain ⟨hv', hh'⟩ := hc
            obtain ⟨⟨e1, he1⟩, hr1, hf1⟩ := ih h c.car car2 h1 hc1
            obtain ⟨⟨e2, he2⟩, hr2, hf2⟩ := ih h1 c.cdr cdr2 h2 hc2
            have hlen1 : h.cells.length ≤ h1.cells.length := by
              rw [he1]; simp
            have hlen2 : h1.cells.length ≤ h2.cells.length := by
              rw [he2]; simp
            refine ⟨⟨e1 ++ e2 ++ [⟨car2, cdr2, true⟩], ?_⟩, ?_, ?_⟩
            · rw [← hh']
              simp [he2, he1]
            · rw [← hv']
              simp only [refLB]
              omega
            · intro i c2 hi hgi
              rw [← hh'] at hgi
              simp only at hgi
              by_cases hi2 : i < h2.cells.length
              · rw [List.getElem?_append_left hi2] at hgi
                by_cases hi1 : i < h1.cells.length
                · rw [he2, List.getElem?_append_left hi1] at hgi
                  exact hf1 i c2 hi hgi
                · push_neg at hi1
                  obtain ⟨hro, hca, hcd⟩ := hf2 i c2 hi1 hgi
                  exact ⟨hro, refLB_mono hlen1 hca, refLB_mono hlen1 hcd⟩
              · push_neg at hi2
                rw [List.getElem?_append_right hi2] at hgi
                cases hd : i - h2.cells.length with
                | zero =>
                    rw [hd] at hgi
                    simp at hgi
                    rw [← hgi]
                    exact ⟨rfl, hr1, refLB_mono hlen1 hr2⟩
                | succ k =>
                    rw [hd] at hgi
                    simp at hgi
    | int n0 =>
        simp only [cloneIn, Option.some.injEq, Prod.mk.injEq] at hc
        obtain ⟨hv', hh'⟩ := hc
        rw [← hv', ← hh']
        refine ⟨⟨[], by simp⟩, by simp [refLB], ?_⟩
        intro i c2 hi hgi
        rw [List.getElem?_eq_none (by omega)] at hgi
        exact absurd hgi (by simp)
    | sym s =>
        simp only [cloneIn, Option.some.injEq, Prod.mk.injEq] at hc
        obtain ⟨hv', hh'⟩ := hc
        rw [← hv', ← hh']
        refine ⟨⟨[], by simp⟩, by simp [refLB], ?_⟩
        intro i c2 hi hgi
        rw [List.getElem?_eq_none (by omega)] at hgi
        exact absurd hgi (by simp)
    | nil =>
        simp only [cloneIn, Option.some.injEq, Prod.mk.injEq] at hc
        obtain ⟨hv', hh'⟩ := hc
        rw [← hv', ← hh']
        refine ⟨⟨[], by simp⟩, by simp [refLB], ?_⟩
        intro i c2 hi hgi
        rw [List.getElem?_eq_none (by omega)] at hgi
        exact absurd hgi (by simp)
    | t =>
        simp only [cloneIn, Option.some.injEq, Prod.mk.injEq] at hc
        obtain ⟨hv', hh'⟩ := hc
        rw [← hv', ← hh']
        refine ⟨⟨[], by simp⟩, by simp [refLB], ?_⟩
        intro i c2 hi hgi
        rw [List.getElem?_eq_none (by omega)] at hgi
        exact absurd hgi (by simp)

theorem reach_ro {h : HHeap} {lo : Nat} {v : HVal} {b : Nat}
    (hf : FreshRO h lo) (hr : Reaches h v b) :
    refLB lo v → lo ≤ b ∧ ∃ c, h.cells[b]? = some c ∧ c.ro = true := by
  induction hr with
  | here hg => intro hv; exact ⟨hv, _, hg, (hf _ _ hv hg).1⟩
  | viaCar hg _ ih => intro hv; exact ih ((hf _ _ hv hg).2.1)
  | viaCdr hg _ ih => intro hv; exact ih ((hf _ _ hv hg).2.2)

theorem readBack_agree {lo : Nat} {h1 h2 : HHeap}
    (hf : FreshRO h1 lo)
    (hagree : ∀ b, lo ≤ b → h2.cells[b]? = h1.cells[b]?) :
    ∀ (m : Nat) (v : HVal), refLB lo v → readBack m h2 v = readBack m h1 v := by
  intro m
  induction m with
  | zero => intro v hv; simp [readBack]
  | succ n ih =>
    intro v hv
    cases v with
    | ref a =>
      simp only [readBack]
      rw [hagree a hv]
      cases hg : h1.cells[a]? with
      | none => rfl
      | some c =>
        simp only [hg]
        have hc := hf a c hv hg
        rw [ih c.car hc.2.1, ih c.cdr hc.2.2]
    | int n0 => rfl
    | sym s => rfl
    | nil => rfl
    | t => rfl

theorem find_slotSet (slots : List (String × HVal)) (s : String) (v : HVal) :
    (slotSet slots s v).find? (fun p => p.1 = s) = some (s, v) := by
  induction slots with
  | nil => simp [slotSet]
  | cons p rest ih =>
      by_cases hp : p.1 = s
      · simp [slotSet, hp]
      · simp [slotSet, hp, ih]

theorem getFunc_slotSet (hh : HHeap) (slots : List (String × HVal)) (s : String)
    (v : HVal) : getFunc ⟨hh, slotSet slots s v⟩ s = some v := by
  simp [getFunc, find_slotSet]

/-- C5: `set_func(sym, func)` deep-clones `func` into the read-only
global block before storing the clone in the symbol's function slot;
afterwards `set-car`/`set-cdr` on any cons reachable from the slot fails
with the immutable-cons error, and mutating any pre-existing cell (in
particular any cell of the original function) leaves the installed
function's readable content unchanged. -/
theorem rune_C5_set_func (tab : SymTab) (s : String) (f f2 : HVal)
    (h2 : HHeap) (fuel : Nat)
    (hclone : cloneIn fuel tab.heap f = some (f2, h2)) :
    SymTab.setFunc tab s f fuel = some ⟨h2, slotSet tab.slots s f2⟩ ∧
    getFunc ⟨h2, slotSet tab.slots s f2⟩ s = some f2 ∧
    (∀ b v, Reaches h2 f2 b →
      setCar h2 b v = .error .immutableCons ∧ setCdr h2 b v = .error .immutableCons) ∧
    (∀ a v h3, a < tab.heap.cells.length → setCar h2 a v = .ok h3 →
      ∀ m, readBack m h3 f2 = readBack m h2 f2) := by
  obtain ⟨⟨ext, hext⟩, hrf, hfr⟩ := cloneIn_spec fuel tab.heap f f2 h2 hclone
  refine ⟨?_, ?_, ?_, ?_⟩
  · simp [SymTab.setFunc, hclone]
  · exact getFunc_slotSet h2 tab.slots s f2
  · intro b v hr
    obtain ⟨hb, c, hget, hro⟩ := reach_ro hfr hr hrf
    constructor
    · simp [setCar, hget, hro]
    · simp [setCdr, hget, hro]
  · intro a v h3 ha hset m
    simp only [setCar] at hset
    split at hset
    · simp at hset
    · rename_i c hga
      split at hset
      · simp at hset
      · simp only [Except.ok.injEq] at hset
        have hagree : ∀ b, tab.heap.cells.length ≤ b →
            h3.cells[b]? = h2.cells[b]? := by
          intro b hbb
          rw [← hset]
          simp only
          exact List.getElem?_set_ne (by omega)
        exact readBack_agree hfr hagree m f2 hrf

/-- Witness for C5: installing a one-cons function from a mutable cell
produces a read-only clone whose cell rejects `set-car`. -/
theorem rune_C5_witness :
    SymTab.setFunc ⟨⟨[⟨.int 1, .nil, false⟩]⟩, []⟩ "f" (.ref 0) 3 =
      some ⟨⟨[⟨.int 1, .nil, false⟩, ⟨.int 1, .nil, true⟩]⟩, [("f", .ref 1)]⟩ ∧
    setCar ⟨[⟨.int 1, .nil, false⟩, ⟨.int 1, .nil, true⟩]⟩ 1 (.int 9) =
      .error .immutableCons := by
  have h := rune_C5_set_func ⟨⟨[⟨.int 1, .nil, false⟩]⟩, []⟩ "f" (.ref 0)
      (.ref 1) ⟨[⟨.int 1, .nil, false⟩, ⟨.int 1, .nil, true⟩]⟩ 3 rfl
  exact ⟨h.1, (h.2.2.1 1 (.int 9) (Reaches.here (c := ⟨.int 1, .nil, true⟩) rfl)).1⟩

/-- C1 (code bug): with the dynamic value `x = 1`, both
`(let* ((x 2) (x 3)) nil)` and `(let ((x 2) (x 3)) nil)` return with
`x = 2`: the restore loop walks the shadow list forward instead of in
reverse, so a symbol shadowed twice in one binding list is left holding
the first shadowing value instead of its original value. -/
theorem rune_C1_let_restore_bug :
    evalForm gBase 10 ⟨[], [("x", .int 1)]⟩
      (listO [.sym "let*", listO [listO [.sym "x", .int 2], listO [.sym "x", .int 3]], .nil])
      = (⟨[], [("x", .int 2)]⟩, .ok .nil) ∧
    evalForm gBase 10 ⟨[], [("x", .int 1)]⟩
      (listO [.sym "let", listO [listO [.sym "x", .int 2], listO [.sym "x", .int 3]], .nil])
      = (⟨[], [("x", .int 2)]⟩, .ok .nil) := ⟨rfl, rfl⟩

/-- C4 counterexample: `(catch (if) 5)` returns `5` even though
evaluating the tag form `(if)` would fail with an arg error — the tag
expression is consumed but never evaluated, contrary to the claim. -/
theorem rune_C4_counterexample :
    evalForm gBase 10 ⟨[], []⟩ (listO [.sym "catch", listO [.sym "if"], .int 5])
      = (⟨[], []⟩, .ok (.int 5)) ∧
    evalForm gBase 10 ⟨[], []⟩ (listO [.sym "if"])
      = (⟨[], []⟩, .error (.argError 2 0 "if")) := ⟨rfl, rfl⟩

/-- C4 (amended): `(catch tag body...)` consumes the tag form without
evaluating it — the result is the implicit progn of the body for every
tag whatsoever — and a `catch` with no tag argument is an arg-error. -/
theorem rune_C4_catch :
    (∀ (g : Globals) (n : Nat) (st : St) (tag rest : Obj),
      evalForm g (n + 1) st (.cons (.sym "catch") (.cons tag rest)) =
        implicitProgn (evalForm g n) st rest) ∧
    (∀ (g : Globals) (n : Nat) (st : St),
      evalForm g (n + 1) st (.cons (.sym "catch") .nil) =
        (st, .error (.argError 1 0 "catch"))) := by
  constructor
  · intro g n st tag rest
    rfl
  · intro g n st
    rfl

/-- C3 counterexample: `(defvar x 2)` with `x` already dynamically bound
to `1` overwrites the cell — `defvar` does not check for an existing
binding, contrary to the claim. -/
theorem rune_C3_counterexample :
    evalForm gBase 10 ⟨[], [("x", .int 1)]⟩
      (listO [.sym "defvar", .sym "x", .int 2]) = (⟨[], [("x", .int 2)]⟩, .ok (.int 2)) ∧
    envGet [("x", Obj.int 2)] "x" ≠ some (.int 1) := ⟨rfl, by decide⟩

/-- C3 (amended): `defvar` and `defconst` dispatch to the same handler
and both set the value unconditionally through `var_set`; the evaluated
value (nil when no value form) is returned, and zero arguments is an
arg-error. -/
theorem rune_C3_defvar_defconst :
    (∀ (g : Globals) (n : Nat) (st : St) (args : Obj),
      evalForm g (n + 1) st (.cons (.sym "defvar") args) =
        evalForm g (n + 1) st (.cons (.sym "defconst") args)) ∧
    (∀ (ev : Ev) (st st1 : St) (s : String) (vform v : Obj),
      ev st vform = (st1, .ok v) →
      evalDefvar ev st (.cons (.sym s) (.cons vform .nil)) = (varSet s v st1, .ok v)) ∧
    (∀ (ev : Ev) (st : St) (s : String),
      evalDefvar ev st (.cons (.sym s) .nil) = (varSet s .nil st, .ok .nil)) ∧
    (∀ (ev : Ev) (st : St), evalDefvar ev st .nil = (st, .error (.argError 1 0 "defvar"))) := by
  refine ⟨?_, ?_, ?_, ?_⟩
  · intro g n st args
    rfl
  · intro ev st st1 s vform v hev
    simp [evalDefvar, hev]
  · intro ev st s
    rfl
  · intro ev st
    rfl

/-- Witness for C3 (amended): `(defvar x 7)` in the empty state binds
the dynamic cell and returns 7. -/
theorem rune_C3_witness :
    evalDefvar (evalForm gBase 5) ⟨[], []⟩ (.cons (.sym "x") (.cons (.int 7) .nil))
      = (⟨[], [("x", .int 7)]⟩, .ok (.int 7)) := by
  exact rune_C3_defvar_defconst.2.1 (evalForm gBase 5) ⟨[], []⟩ ⟨[], []⟩ "x" (.int 7)
    (.int 7) rfl

/-- C2 counterexample: the handler `((error foo) 99)` — whose condition
list contains `error` and therefore matches per the claim — instead
raises a fresh "non-error conditions" error; and a matching handler's
variable is bound to the two-element list `(error msg)`, not to the
dotted pair `(error . msg)`. -/
theorem rune_C2_counterexample :
    evalForm gBase 10 ⟨[], []⟩
      (listO [.sym "condition-case", .sym "x", listO [.sym "if"],
        listO [listO [.sym "error", .sym "foo"], .int 99]])
      = (⟨[], []⟩, .error (.nonErrorCondition (.sym "foo"))) ∧
    (evalForm gBase 10 ⟨[], []⟩
      (listO [.sym "condition-case", .sym "v", listO [.sym "if"],
        listO [.sym "error", .sym "v"]])).2
      = .ok (.cons (.sym "error") (.cons (.str (errMsg (.argError 2 0 "if"))) .nil)) ∧
    (evalForm gBase 10 ⟨[], []⟩
      (listO [.sym "condition-case", .sym "v", listO [.sym "if"],
        listO [.sym "error", .sym "v"]])).2
      ≠ .ok (.cons (.sym "error") (.str (errMsg (.argError 2 0 "if")))) :=
  ⟨rfl, rfl, by decide⟩

/-- The condition lists accepted by `condListCheck` are exactly the
proper lists all of whose elements are `error` or `debug`. -/
theorem condListCheck_iff : ∀ o : Obj, condListCheck o = .ok () ↔
    ∃ xs, o = listO xs ∧ ∀ y ∈ xs, y = Obj.sym "error" ∨ y = Obj.sym "debug" := by
  intro o
  induction o with
  | nil =>
      constructor
      · intro _; exact ⟨[], rfl, by simp⟩
      · intro _; rfl
  | cons x rest ihx ihrest =>
      constructor
      · intro h
        simp only [condListCheck] at h
        by_cases hx : x = Obj.sym "debug" ∨ x = Obj.sym "error"
        · rw [if_pos hx] at h
          obtain ⟨xs, hxs, hall⟩ := ihrest.mp h
          refine ⟨x :: xs, by simp [listO, hxs], ?_⟩
          intro y hy
          rcases List.mem_cons.mp hy with hy | hy
          · subst hy
            exact hx.symm
          · exact hall y hy
        · rw [if_neg hx] at h
          simp at h
      · rintro ⟨xs, hxs, hall⟩
        cases xs with
        | nil => simp [listO] at hxs
        | cons z zs =>
            simp only [listO, Obj.cons.injEq] at hxs
            obtain ⟨hxz, hrest⟩ := hxs
            subst hxz
            simp only [condListCheck]
            have hx : x = Obj.sym "debug" ∨ x = Obj.sym "error" :=
              (hall x (by simp)).symm
            rw [if_pos hx]
            exact ihrest.mpr ⟨zs, hrest, fun y hy => hall y (by simp [hy])⟩
  | int n =>
      constructor
      · intro h; simp [condListCheck] at h
      · rintro ⟨xs, hxs, _⟩; cases xs <;> simp [listO] at hxs
  | str s =>
      constructor
      · intro h; simp [condListCheck] at h
      · rintro ⟨xs, hxs, _⟩; cases xs <;> simp [listO] at hxs
  | sym s =>
      constructor
      · intro h; simp [condListCheck] at h
      · rintro ⟨xs, hxs, _⟩; cases xs <;> simp [listO] at hxs
  | subr s =>
      constructor
      · intro h; simp [condListCheck] at h
      · rintro ⟨xs, hxs, _⟩; cases xs <;> simp [listO] at hxs
  | t =>
      constructor
      · intro h; simp [condListCheck] at h
      · rintro ⟨xs, hxs, _⟩; cases xs <;> simp [listO] at hxs

/-- A handler condition passes `condCheck` exactly when it is the symbol
`error` or a nonempty list all of whose elements are `error` or
`debug`. -/
theorem condCheck_iff (cond : Obj) : condCheck cond = .ok () ↔
    (cond = .sym "error" ∨ ∃ x xs, cond = listO (x :: xs) ∧
      ∀ y ∈ x :: xs, y = Obj.sym "error" ∨ y = Obj.sym "debug") := by
  cases cond with
  | sym s =>
      by_cases hs : s = "error"
      · subst hs
        constructor
        · intro _
          exact Or.inl rfl
        · intro _
          rfl
      · simp only [condCheck, if_neg hs]
        constructor
        · intro h; simp at h
        · rintro (h | ⟨x, xs, hxs, _⟩)
          · exact absurd (Obj.sym.inj h) hs
          · simp [listO] at hxs
  | cons a d =>
      rw [show condCheck (.cons a d) = condListCheck (.cons a d) from rfl]
      rw [condListCheck_iff]
      constructor
      · rintro ⟨xs, hxs, hall⟩
        cases xs with
        | nil => simp [listO] at hxs
        | cons z zs => exact Or.inr ⟨z, zs, hxs, hall⟩
      · rintro (h | ⟨x, xs, hxs, hall⟩)
        · simp at h
        · exact ⟨x :: xs, hxs, hall⟩
  | int n =>
      constructor
      · intro h; simp [condCheck] at h
      · rintro (h | ⟨x, xs, hxs, _⟩)
        · simp at h
        · simp [listO] at hxs
  | str s =>
      constructor
      · intro h; simp [condCheck] at h
      · rintro (h | ⟨x, xs, hxs, _⟩)
        · simp at h
        · simp [listO] at hxs
  | subr s =>
      constructor
      · intro h; simp [condCheck] at h
      · rintro (h | ⟨x, xs, hxs, _⟩)
        · simp at h
        · simp [listO] at hxs
  | nil =>
      constructor
      · intro h; simp [condCheck] at h
      · rintro (h | ⟨x, xs, hxs, _⟩)
        · simp at h
        · simp [listO] at hxs
  | t =>
      constructor
      · intro h; simp [condCheck] at h
      · rintro (h | ⟨x, xs, hxs, _⟩)
        · simp at h
        · simp [listO] at hxs

/-- C2 (amended): `condition-case` handler scanning — an exhausted
handler list propagates the original error; nil handlers are skipped; a
handler's condition matches exactly when it is the symbol `error` or a
nonempty list all of whose elements are `error` or `debug`; a matching
handler runs its body with the handler variable bound (on the lexical
stack) to the two-element list `(error message-string)`, popping the
binding on success; a condition that fails the check raises that fresh
error instead of being skipped. -/
theorem rune_C2_condition_case :
    (∀ (ev : Ev) (st : St) (var : Obj) (e : Err),
      ccHandlers ev st var e .nil = (st, .error e)) ∧
    (∀ (ev : Ev) (st : St) (var : Obj) (e : Err) (rest : Obj),
      ccHandlers ev st var e (.cons .nil rest) = ccHandlers ev st var e rest) ∧
    (∀ cond : Obj, condCheck cond = .ok () ↔
      (cond = .sym "error" ∨ ∃ x xs, cond = listO (x :: xs) ∧
        ∀ y ∈ x :: xs, y = Obj.sym "error" ∨ y = Obj.sym "debug")) ∧
    (∀ (ev : Ev) (st st2 : St) (var : Obj) (e : Err) (cond hbody rest v : Obj),
      condCheck cond = .ok () →
      (hbody = .nil ∨ ∃ a d, hbody = .cons a d) →
      implicitProgn ev
        ⟨st.lex ++ [(var, .cons (.sym "error") (.cons (.str (errMsg e)) .nil))], st.env⟩
        hbody = (st2, .ok v) →
      ccHandlers ev st var e (.cons (.cons cond hbody) rest) =
        (⟨st2.lex.dropLast, st2.env⟩, .ok v)) ∧
    (∀ (ev : Ev) (st : St) (var : Obj) (e : Err) (cond hbody rest : Obj) (e2 : Err),
      condCheck cond = .error e2 →
      ccHandlers ev st var e (.cons (.cons cond hbody) rest) = (st, .error e2)) := by
  refine ⟨?_, ?_, condCheck_iff, ?_, ?_⟩
  · intro ev st var e
    rfl
  · intro ev st var e rest
    rfl
  · intro ev st st2 var e cond hbody rest v hcond hshape himp
    rcases hshape with rfl | ⟨a, d, rfl⟩
    · simp [ccHandlers, hcond, himp]
    · simp [ccHandlers, hcond, himp]
  · intro ev st var e cond hbody rest e2 hcond
    simp [ccHandlers, hcond]

/-- Witness for C2 (amended): the handler `(error 7)` catches an
arg-error and returns 7, and the condition list `(debug error)`
matches. -/
theorem rune_C2_witness :
    ccHandlers (evalForm gBase 5) ⟨[], []⟩ (.sym "v") (.argError 2 0 "if")
      (listO [listO [.sym "error", .int 7]]) = (⟨[], []⟩, .ok (.int 7)) ∧
    condCheck (listO [.sym "debug", .sym "error"]) = .ok () := by
  constructor
  · exact rune_C2_condition_case.2.2.2.1 (evalForm gBase 5) ⟨[], []⟩
      ⟨[(Obj.sym "v",
          Obj.cons (.sym "error") (.cons (.str (errMsg (.argError 2 0 "if"))) .nil))], []⟩
      (.sym "v") (.argError 2 0 "if") (.sym "error") (.cons (.int 7) .nil) .nil (.int 7)
      rfl (Or.inr ⟨_, _, rfl⟩) rfl
  · refine rune_C2_condition_case.2.2.1 (listO [.sym "debug", .sym "error"]) |>.mpr
      (Or.inr ⟨.sym "debug", [.sym "error"], rfl, ?_⟩)
    intro y hy
    simp only [List.mem_cons, List.not_mem_nil, or_false] at hy
    rcases hy with rfl | rfl
    · exact Or.inr rfl
    · exact Or.inl rfl

/-- A lexical stack none of whose cons cars is the symbol yields no
newest-first match. -/
theorem findNewest_none {lex : List (Obj × Obj)} {s : String}
    (h : ∀ p ∈ lex, p.1 ≠ Obj.sym s) : findNewest lex s = none := by
  have h2 : lex.reverse.find? (fun c => c.1 = Obj.sym s) = none := by
    rw [List.find?_eq_none]
    intro p hp
    simpa using h p (List.mem_reverse.mp hp)
  simp [findNewest, h2]

/-- The newest-first search returns the value of the rightmost matching
cons: any binding with no matching cons newer (to its right). -/
theorem findNewest_split (l1 l2 : List (Obj × Obj)) (s : String) (v : Obj)
    (hnone : ∀ p ∈ l2, p.1 ≠ Obj.sym s) :
    findNewest (l1 ++ (Obj.sym s, v) :: l2) s = some v := by
  simp only [findNewest]
  have hrev : (l1 ++ (Obj.sym s, v) :: l2).reverse =
      l2.reverse ++ (Obj.sym s, v) :: l1.reverse := by
    simp
  rw [hrev, List.find?_append]
  have h2 : l2.reverse.find? (fun c => c.1 = Obj.sym s) = none := by
    rw [List.find?_eq_none]
    intro p hp
    simpa using hnone p (List.mem_reverse.mp hp)
  rw [h2]
  simp [List.find?_cons]

/-- C7: variable reference — a name starting with `:` self-evaluates to
the symbol; otherwise the newest matching lexical binding's value is
returned; failing that the dynamic cell in `env.vars`; failing that the
void-variable error. -/
theorem rune_C7_var_ref :
    (∀ (st : St) (name : String), isKeyword name = true →
      varRef st name = .ok (.sym name)) ∧
    (∀ (st : St) (name : String) (l1 l2 : List (Obj × Obj)) (v : Obj),
      isKeyword name = false →
      st.lex = l1 ++ (Obj.sym name, v) :: l2 →
      (∀ p ∈ l2, p.1 ≠ Obj.sym name) →
      varRef st name = .ok v) ∧
    (∀ (st : St) (name : String) (v : Obj),
      isKeyword name = false →
      (∀ p ∈ st.lex, p.1 ≠ Obj.sym name) →
      envGet st.env name = some v →
      varRef st name = .ok v) ∧
    (∀ (st : St) (name : String),
      isKeyword name = false →
      (∀ p ∈ st.lex, p.1 ≠ Obj.sym name) →
      envGet st.env name = none →
      varRef st name = .error (.voidVariable name)) := by
  refine ⟨?_, ?_, ?_, ?_⟩
  · intro st name hk
    simp [varRef, hk]
  · intro st name l1 l2 v hk hlex hnone
    rw [varRef, if_neg (by simp [hk]), hlex, findNewest_split l1 l2 name v hnone]
  · intro st name v hk hnone henv
    rw [varRef, if_neg (by simp [hk]), findNewest_none hnone, henv]
  · intro st name hk hnone henv
    rw [varRef, if_neg (by simp [hk]), findNewest_none hnone, henv]

/-- Witness for C7: one concrete instance of each of the four cases. -/
theorem rune_C7_witness :
    varRef ⟨[], []⟩ ":kw" = .ok (.sym ":kw") ∧
    varRef ⟨[(Obj.sym "x", .int 1), (Obj.sym "x", .int 3), (Obj.sym "y", .int 9)], []⟩ "x"
      = .ok (.int 3) ∧
    varRef ⟨[(Obj.sym "y", .int 9)], [("x", .int 4)]⟩ "x" = .ok (.int 4) ∧
    varRef ⟨[], []⟩ "x" = .error (.voidVariable "x") := by
  refine ⟨?_, ?_, ?_, ?_⟩
  · exact rune_C7_var_ref.1 ⟨[], []⟩ ":kw" rfl
  · exact rune_C7_var_ref.2.1 ⟨[(Obj.sym "x", .int 1), (Obj.sym "x", .int 3),
      (Obj.sym "y", .int 9)], []⟩ "x" [(Obj.sym "x", .int 1)] [(Obj.sym "y", .int 9)]
      (.int 3) rfl rfl (by decide)
  · exact rune_C7_var_ref.2.2.1 ⟨[(Obj.sym "y", .int 9)], [("x", .int 4)]⟩ "x" (.int 4)
      rfl (by decide) rfl
  · exact rune_C7_var_ref.2.2.2 ⟨[], []⟩ "x" rfl (by decide) rfl

/-- Lookup after inserting a fresh entry at the front of the interning
map finds that entry. -/
theorem smap_get_insert (entries : List (String × Nat)) (k : Nat) (n : String) :
    SMap.get ⟨(n, k) :: entries, k + 1⟩ n = some k := by
  simp [SMap.get]

/-- C8: interning is idempotent — a second `intern` of the same name
returns the same symbol cell (same allocation id) and leaves the map
unchanged; a hit returns the existing entry untouched and a miss
allocates a fresh cell and inserts it under the name. -/
theorem rune_C8_intern :
    (∀ (m : SMap) (n : String),
      SMap.intern (SMap.intern m n).2 n = ((SMap.intern m n).1, (SMap.intern m n).2)) ∧
    (∀ (m : SMap) (n : String) (x : Nat), SMap.get m n = some x →
      SMap.intern m n = (x, m)) ∧
    (∀ (m : SMap) (n : String), SMap.get m n = none →
      SMap.intern m n = (m.nextId, ⟨(n, m.nextId) :: m.entries, m.nextId + 1⟩) ∧
      SMap.get (SMap.intern m n).2 n = some m.nextId) := by
  refine ⟨?_, ?_, ?_⟩
  · intro m n
    cases hg : SMap.get m n with
    | some x => simp [SMap.intern, hg]
    | none => simp [SMap.intern, hg, smap_get_insert]
  · intro m n x hg
    simp [SMap.intern, hg]
  · intro m n hg
    constructor
    · simp [SMap.intern, hg]
    · simp [SMap.intern, hg, smap_get_insert]

/-- Witness for C8: interning "foo" twice from the empty map yields the
same cell id 0 and the same map. -/
theorem rune_C8_witness :
    SMap.get ⟨[], 0⟩ "foo" = none ∧
    SMap.intern ⟨[], 0⟩ "foo" = (0, ⟨[("foo", 0)], 1⟩) ∧
    SMap.intern ⟨[("foo", 0)], 1⟩ "foo" = (0, ⟨[("foo", 0)], 1⟩) := by
  refine ⟨rfl, ?_, ?_⟩
  · exact (rune_C8_intern.2.2 ⟨[], 0⟩ "foo" rfl).1
  · exact rune_C8_intern.2.1 ⟨[("foo", 0)], 1⟩ "foo" 0 rfl

/-- A fully successful run of the `setq` pair loop returns the value
assigned to the last pair and ends in the folded state, whatever the
loop's starting counter and accumulator, provided the `u16` pair
counter never wraps along the way. -/
theorem setqLoop_of_steps {ev : Ev} {st : St} {forms : Obj} {k : Nat} {st' : St}
    {lastv : Obj} (h : SetqSteps ev st forms k st' lastv) :
    ∀ (c : Nat) (l : Obj), c + 2 * k < 65536 →
      setqLoop ev st forms c l = (st', .ok lastv) := by
  induction h with
  | last hev =>
      intro c l hc
      simp only [setqLoop, hev]
      rw [Nat.mod_eq_of_lt (by omega), if_neg (by omega)]
  | step hev _ ih =>
      intro c l hc
      simp only [setqLoop, hev]
      rw [Nat.mod_eq_of_lt (by omega)]
      exact ih (c + 2) _ (by omega)

/-- With no matching cons on the stack, the in-place update finds
nothing. -/
theorem updNewest_none {lex : List (Obj × Obj)} {s : String} {v : Obj}
    (h : ∀ p ∈ lex, p.1 ≠ Obj.sym s) : updNewest lex s v = none := by
  induction lex with
  | nil => rfl
  | cons p rest ih =>
      simp only [updNewest]
      rw [ih (fun q hq => h q (List.mem_cons_of_mem _ hq))]
      rw [if_neg (h p (List.mem_cons_self _ _))]

/-- The in-place update rewrites exactly the newest (rightmost) cons
whose car is the symbol, leaving everything else untouched. -/
theorem updNewest_split (l1 l2 : List (Obj × Obj)) (s : String) (old v : Obj)
    (h : ∀ p ∈ l2, p.1 ≠ Obj.sym s) :
    updNewest (l1 ++ (Obj.sym s, old) :: l2) s v = some (l1 ++ (Obj.sym s, v) :: l2) := by
  induction l1 with
  | nil =>
      simp only [List.nil_append, updNewest]
      rw [updNewest_none h]
      simp
  | cons q l1' ih =>
      simp only [List.cons_append, updNewest, List.append_eq]
      rw [ih]

/-- Running the `setq` loop over `k` copies of the pair `x 1` from a
state where `x` is already dynamically 1 leaves the state unchanged and
yields the last assigned value 1 — unless the wrapped pair counter
lands below 2, in which case the loop reports the zero-args arg-error
despite having performed every assignment. -/
theorem setqN_wrap :
    ∀ (k c : Nat) (l : Obj), c < 65536 →
      setqLoop (evalForm gBase 1) ⟨[], [("x", Obj.int 1)]⟩ (setqNPairs k) c l =
        (⟨[], [("x", Obj.int 1)]⟩,
          if (c + 2 * k) % 65536 < 2 then .error (.argError 2 0 "setq")
          else .ok (if k = 0 then l else .int 1)) := by
  intro k
  induction k with
  | zero =>
      intro c l hc
      simp only [setqNPairs, setqLoop, Nat.mod_eq_of_lt hc, Nat.mul_zero, Nat.add_zero]
      split <;> rfl
  | succ k ih =>
      intro c l hc
      have hev : evalForm gBase 1 ⟨[], [("x", Obj.int 1)]⟩ (.int 1) =
          (⟨[], [("x", Obj.int 1)]⟩, .ok (.int 1)) := rfl
      have hvs : varSet "x" (.int 1) ⟨[], [("x", Obj.int 1)]⟩ =
          ⟨[], [("x", Obj.int 1)]⟩ := rfl
      simp only [setqNPairs, setqLoop, hev, hvs]
      rw [ih ((c + 2) % 65536) (.int 1) (Nat.mod_lt _ (by omega))]
      have harith : ((c + 2) % 65536 + 2 * k) % 65536 = (c + 2 * (k + 1)) % 65536 := by
        rw [Nat.mod_add_mod]
        congr 1
        ring
      rw [harith]
      simp

/-- Dispatch of a `setq` special form: at positive fuel, `eval_sexp`
hands the argument list to the pair loop with the `u16` counter at 0
and the accumulated last value at nil. -/
theorem evalForm_setq (g : Globals) (n : Nat) (st : St) (forms : Obj) :
    evalForm g (n + 1) st (.cons (.sym "setq") forms) =
      setqLoop (evalForm g n) st forms 0 .nil := rfl

/-- C10 counterexample: a `setq` of `2 ^ 15` well-formed pairs — every
value form evaluates and every assignment is performed — returns the
arg-error `(2, 0, setq)` instead of the value assigned to the last
pair, because the source's `u16` pair counter wraps back to 0 (a debug
build panics at the same point rather than returning at all). -/
theorem rune_C10_counterexample :
    evalForm gBase 2 ⟨[], [("x", Obj.int 1)]⟩
      (.cons (.sym "setq") (setqNPairs 32768))
      = (⟨[], [("x", Obj.int 1)]⟩, .error (.argError 2 0 "setq")) ∧
    (evalForm gBase 2 ⟨[], [("x", Obj.int 1)]⟩
      (.cons (.sym "setq") (setqNPairs 32768))).2 ≠ .ok (.int 1) := by
  have hstep : evalForm gBase 2 ⟨[], [("x", Obj.int 1)]⟩
      (.cons (.sym "setq") (setqNPairs 32768))
      = setqLoop (evalForm gBase 1) ⟨[], [("x", Obj.int 1)]⟩
          (setqNPairs 32768) 0 .nil :=
    evalForm_setq gBase 1 ⟨[], [("x", Obj.int 1)]⟩ (setqNPairs 32768)
  have h := setqN_wrap 32768 0 .nil (by omega)
  rw [hstep, h]
  norm_num
  exact fun hco => Except.noConfusion hco

/-- C10 (amended): a well-formed `setq` of fewer than `2 ^ 15` pairs
whose value forms all evaluate returns the value assigned to the last
pair, with each assignment applied through `var_set`; `var_set` updates
the newest matching lexical binding in place when one exists and
otherwise sets the symbol's dynamic value in `env.vars`. -/
theorem rune_C10_setq :
    (∀ (g : Globals) (n : Nat) (st st' : St) (forms lastv : Obj) (k : Nat),
      SetqSteps (evalForm g n) st forms k st' lastv → k < 32768 →
      evalForm g (n + 1) st (.cons (.sym "setq") forms) = (st', .ok lastv)) ∧
    (∀ (st : St) (l1 l2 : List (Obj × Obj)) (s : String) (old v : Obj),
      st.lex = l1 ++ (Obj.sym s, old) :: l2 →
      (∀ p ∈ l2, p.1 ≠ Obj.sym s) →
      varSet s v st = ⟨l1 ++ (Obj.sym s, v) :: l2, st.env⟩) ∧
    (∀ (st : St) (s : String) (v : Obj),
      (∀ p ∈ st.lex, p.1 ≠ Obj.sym s) →
      varSet s v st = ⟨st.lex, envSet st.env s v⟩) := by
  refine ⟨?_, ?_, ?_⟩
  · intro g n st st' forms lastv k h hk
    exact setqLoop_of_steps h 0 .nil (by omega)
  · intro st l1 l2 s old v hlex hnone
    obtain ⟨lex, env⟩ := st
    simp only at hlex
    subst hlex
    simp [varSet, updNewest_split l1 l2 s old v hnone]
  · intro st s v hnone
    obtain ⟨lex, env⟩ := st
    simp [varSet, updNewest_none hnone]

/-- Witness for C10: `(setq x 1 y 2)` returns 2 and sets both dynamic
cells. -/
theorem rune_C10_witness :
    evalForm gBase 3 ⟨[], []⟩
      (listO [.sym "setq", .sym "x", .int 1, .sym "y", .int 2])
      = (⟨[], [("x", .int 1), ("y", .int 2)]⟩, .ok (.int 2)) := by
  have h1 : SetqSteps (evalForm gBase 2) (varSet "x" (.int 1) ⟨[], []⟩)
      (.cons (.sym "y") (.cons (.int 2) .nil)) 1
      (varSet "y" (.int 2) (varSet "x" (.int 1) ⟨[], []⟩)) (.int 2) :=
    SetqSteps.last rfl
  have h2 : SetqSteps (evalForm gBase 2) ⟨[], []⟩
      (.cons (.sym "x") (.cons (.int 1) (.cons (.sym "y") (.cons (.int 2) .nil)))) 2
      (varSet "y" (.int 2) (varSet "x" (.int 1) ⟨[], []⟩)) (.int 2) :=
    SetqSteps.step rfl h1
  exact rune_C10_setq.1 gBase 2 ⟨[], []⟩ _ _ _ 2 h2 (by omega)

/-- C9: `macroexpand` — a supplied (non-default) environment argument
raises the unimplemented error; the form is returned unchanged unless it
is a cons whose car is a symbol resolving to a macro; in the macro case
the macro is called once on the unevaluated cdr and the expansion is the
result itself, with no further evaluation or expansion. -/
theorem rune_C9_macroexpand :
    (∀ (g : Globals) (ev : Ev) (cf : Nat) (form x : Obj) (env : List (String × Obj)),
      macroExpandFn g ev cf form (some x) env =
        (env, .error (.unimplemented "macroexpand override environment"))) ∧
    (∀ (g : Globals) (ev : Ev) (cf : Nat) (form : Obj) (env : List (String × Obj)),
      (∀ (name : String) (rest : Obj), form ≠ .cons (.sym name) rest) →
      macroExpandFn g ev cf form none env = (env, .ok form)) ∧
    (∀ (g : Globals) (ev : Ev) (cf : Nat) (name : String) (rest : Obj)
        (env : List (String × Obj)),
      followIndirect g 256 name = none →
      macroExpandFn g ev cf (.cons (.sym name) rest) none env =
        (env, .ok (.cons (.sym name) rest))) ∧
    (∀ (g : Globals) (ev : Ev) (cf : Nat) (name : String) (rest c : Obj)
        (env : List (String × Obj)),
      followIndirect g 256 name = some c →
      asMacroObj c = none →
      macroExpandFn g ev cf (.cons (.sym name) rest) none env =
        (env, .ok (.cons (.sym name) rest))) ∧
    (∀ (g : Globals) (ev : Ev) (cf : Nat) (name : String) (rest c mfn : Obj)
        (margs : List Obj) (env : List (String × Obj)),
      followIndirect g 256 name = some c →
      asMacroObj c = some mfn →
      objAsList rest = .ok margs →
      macroExpandFn g ev cf (.cons (.sym name) rest) none env =
        callFunction g ev cf mfn margs env (some name)) := by
  refine ⟨?_, ?_, ?_, ?_, ?_⟩
  · intro g ev cf form x env
    rfl
  · intro g ev cf form env hne
    cases form with
    | cons a d =>
        cases a with
        | sym s => exact absurd rfl (hne s d)
        | int n => rfl
        | str s => rfl
        | cons x y => rfl
        | subr s => rfl
        | nil => rfl
        | t => rfl
    | int n => rfl
    | str s => rfl
    | sym s => rfl
    | subr s => rfl
    | nil => rfl
    | t => rfl
  · intro g ev cf name rest env hfi
    simp [macroExpandFn, hfi]
  · intro g ev cf name rest c env hfi hnm
    simp [macroExpandFn, hfi, hnm]
  · intro g ev cf name rest c mfn margs env hfi hm hargs
    simp [macroExpandFn, hfi, hm, hargs]

/-- Witness for C9: `(m (blah))` expands one level to `(blah)` under a
macro `m` that returns its unevaluated argument — returned as is even
though evaluating `(blah)` would fail. -/
theorem rune_C9_witness :
    macroExpandFn gMac (evalForm gMac 3) 5
      (.cons (.sym "m") (.cons (.cons (.sym "blah") .nil) .nil)) none []
      = ([], .ok (.cons (.sym "blah") .nil)) ∧
    (evalForm gMac 3 ⟨[], []⟩ (.cons (.sym "blah") .nil)).2
      = .error (.invalidFunction (.sym "blah")) := by
  constructor
  · have h := rune_C9_macroexpand.2.2.2.2 gMac (evalForm gMac 3) 5 "m"
      (.cons (.cons (.sym "blah") .nil) .nil)
      (.cons (.sym "macro") (.cons (.sym "closure")
        (.cons (.cons .t .nil)
          (.cons (.cons (.sym "x") .nil) (.cons (.sym "x") .nil)))))
      (.cons (.sym "closure")
        (.cons (.cons .t .nil)
          (.cons (.cons (.sym "x") .nil) (.cons (.sym "x") .nil))))
      [.cons (.sym "blah") .nil] [] rfl rfl rfl
    exact h.trans (by rfl)
  · rfl

/-- The required-parameter loop pairs each required name with the next
actual and leaves the remainder, whenever enough actuals exist. -/
theorem bindRequired_spec :
    ∀ (req : List String) (args : List Obj), req.length ≤ args.length →
      bindRequired req args =
        .ok (List.zipWith (fun s a => (Obj.sym s, a)) req args, args.drop req.length) := by
  intro req
  induction req with
  | nil => intro args _; simp [bindRequired]
  | cons n ns ih =>
      intro args hlen
      cases args with
      | nil => simp at hlen
      | cons a more =>
          simp only [bindRequired]
          rw [ih more (by simpa using hlen)]
          simp

/-- The optional-parameter loop pairs each optional name with the next
actual, defaulting to nil when the actuals run out. -/
theorem bindOptional_spec :
    ∀ (opt : List String) (args : List Obj),
      bindOptional opt args =
        (List.zipWith (fun s a => (Obj.sym s, a)) opt (args.takeD opt.length .nil),
          args.drop opt.length) := by
  intro opt
  induction opt with
  | nil => intro args; simp [bindOptional]
  | cons n ns ih =>
      intro args
      cases args with
      | nil => simp [bindOptional, ih, List.takeD]
      | cons a more => simp [bindOptional, ih, List.takeD]

/-- C6 counterexample: a call of `(lambda (x &rest z))` shape with
`2^16` actual arguments — far more than the one required argument the
claim demands — is rejected with the arity error `expected 1, got 0`,
because the arity check compares `as u16`-truncated counts. -/
theorem rune_C6_counterexample :
    bindArgs (.cons (.sym "x") (.cons (.sym "&rest") (.cons (.sym "z") .nil)))
      (List.replicate 65536 (Obj.int 0)) "f" = .error (.argError 1 0 "f") := by
  have hpa : parseArgList
      (.cons (.sym "x") (.cons (.sym "&rest") (.cons (.sym "z") .nil))) =
      .ok (["x"], [], some "z") := rfl
  have key : ∀ (args : List Obj), args.length = 65536 →
      bindArgs (.cons (.sym "x") (.cons (.sym "&rest") (.cons (.sym "z") .nil)))
        args "f" = .error (.argError 1 0 "f") := by
    intro args hlen
    simp [bindArgs, hpa, hlen]
  exact key _ (List.length_replicate 65536 (Obj.int 0))

/-- C6 (amended): for calls whose formal and actual counts are below
`2^16`, `bind_args` behaves exactly as claimed — an arity error when
fewer than `|required|` actuals are supplied; required formals consume
actuals in order; optionals take the next actual or nil; a `&rest`
formal gathers the remainder into a proper list; without `&rest` any
leftover actual is an arity error — and the literal scenario
`(funcall (lambda (x &optional y &rest z) (cons x (cons y z))) 5 7 11)`
evaluates to the list `(5 7 11)`. -/
theorem rune_C6_bind_args :
    (∀ (argList : Obj) (req opt : List String) (restN : Option String)
        (args : List Obj) (name : String),
      parseArgList argList = .ok (req, opt, restN) →
      req.length + opt.length < 65536 → args.length < 65536 →
      ((args.length < req.length →
          bindArgs argList args name = .error (.argError req.length args.length name)) ∧
        (∀ r, restN = some r → req.length ≤ args.length →
          bindArgs argList args name =
            .ok (List.zipWith (fun s a => (Obj.sym s, a)) req args ++
              List.zipWith (fun s a => (Obj.sym s, a)) opt
                ((args.drop req.length).takeD opt.length .nil) ++
              [(Obj.sym r, listO (args.drop (req.length + opt.length)))])) ∧
        (restN = none → req.length ≤ args.length →
          args.length ≤ req.length + opt.length →
          bindArgs argList args name =
            .ok (List.zipWith (fun s a => (Obj.sym s, a)) req args ++
              List.zipWith (fun s a => (Obj.sym s, a)) opt
                ((args.drop req.length).takeD opt.length .nil))) ∧
        (restN = none → req.length + opt.length < args.length →
          bindArgs argList args name =
            .error (.argError (req.length + opt.length) args.length name)))) ∧
    evalForm gBase 20 ⟨[], []⟩
      (listO [.sym "let",
        listO [listO [.sym "x",
          listO [.sym "function",
            listO [.sym "lambda",
              listO [.sym "x", .sym "&optional", .sym "y", .sym "&rest", .sym "z"],
              listO [.sym "cons", .sym "x", listO [.sym "cons", .sym "y", .sym "z"]]]]]],
        listO [.sym "funcall", .sym "x", .int 5, .int 7, .int 11]])
      = (⟨[], []⟩, .ok (listO [.int 5, .int 7, .int 11])) := by
  constructor
  · intro argList req opt restN args name hpa hsum hargs
    have hreq : req.length % 65536 = req.length := Nat.mod_eq_of_lt (by omega)
    have hopt : opt.length % 65536 = opt.length := Nat.mod_eq_of_lt (by omega)
    have hact : args.length % 65536 = args.length := Nat.mod_eq_of_lt hargs
    refine ⟨?_, ?_, ?_, ?_⟩
    · intro hlt
      simp only [bindArgs, hpa, hreq, hact]
      rw [if_pos hlt]
    · intro r hrest hge
      subst hrest
      simp only [bindArgs, hpa, hreq, hopt, hact,
        bindRequired_spec req args hge, bindOptional_spec]
      rw [if_neg (by omega)]
      rw [List.drop_drop]
    · intro hrest hge hle
      subst hrest
      simp only [bindArgs, hpa, hreq, hopt, hact,
        bindRequired_spec req args hge, bindOptional_spec]
      rw [if_neg (by omega)]
      have hnil : (args.drop req.length).drop opt.length = [] := by
        rw [List.drop_drop]
        exact List.drop_eq_nil_of_le (by omega)
      rw [hnil]
      simp
    · intro hrest hlt2
      subst hrest
      have hge : req.length ≤ args.length := by omega
      have hsum2 : (req.length + opt.length) % 65536 = req.length + opt.length :=
        Nat.mod_eq_of_lt hsum
      simp only [bindArgs, hpa, hreq, hopt, hact, hsum2,
        bindRequired_spec req args hge, bindOptional_spec]
      rw [if_neg (by omega)]
      have hne : ((args.drop req.length).drop opt.length).isEmpty = false := by
        rw [List.drop_drop]
        cases hdd : args.drop (req.length + opt.length) with
        | nil =>
            have := congrArg List.length hdd
            simp at this
            omega
        | cons a l => rfl
      rw [hne]
      simp
  · rfl

/-- Witness for C6 (amended): binding `(x &optional y &rest z)` against
the actuals `5 7 11`. -/
theorem rune_C6_witness :
    bindArgs (listO [.sym "x", .sym "&optional", .sym "y", .sym "&rest", .sym "z"])
      [.int 5, .int 7, .int 11] "lambda"
      = .ok [(Obj.sym "x", .int 5), (Obj.sym "y", .int 7),
             (Obj.sym "z", listO [.int 11])] := by
  have h := (rune_C6_bind_args.1
      (listO [.sym "x", .sym "&optional", .sym "y", .sym "&rest", .sym "z"])
      ["x"] ["y"] (some "z") [.int 5, .int 7, .int 11] "lambda"
      rfl (by decide) (by decide)).2.1 "z" rfl (by decide)
  exact h.trans (by rfl)
